import Mathlib

/-!
Verification of the timecard core (`timecard.py`, with the column mapper of
`ptimecard.py` and the day-range ingestion interface of `ctimecard.py`):
quarter-hour rounding with residual carry, aggregation of rounded hours into
per-cell, per-day and per-project totals, and spreadsheet column addressing.

Raw decimal hours are embedded as rationals (`ℚ`): every duration handled by
the program is of the form `h + m/60 + s/3600`, and all thresholds
(`0.875`, `0.675`, `0.375`, `0.125`, `1.0E-4`, `0.25`) are exact decimal
literals, so the arithmetic is exact rational arithmetic.  Python strings
are embedded through `String.data`, and dictionaries as insertion-ordered
association lists with unique keys, which is how CPython dictionaries
behave.
-/

set_option linter.unusedVariables false
set_option maxRecDepth 100000

namespace Timecard

/-- A parsed calendar date, the part of Python's `datetime` the program uses
(`dt.day`, and year/month for `calendar.monthrange`). -/
structure Date where
  day : Nat
  month : Nat
  year : Nat
deriving DecidableEq, Repr

/-- Gregorian leap-year rule used by `calendar.monthrange`. -/
def leap_year (y : Nat) : Bool :=
  (y % 4 == 0 && y % 100 != 0) || y % 400 == 0

/-- Number of days in a month: the second component of Python's
`calendar.monthrange(year, month)` (the first component, the weekday of the
first day of the month, is never used by the program). -/
def days_in_month (y m : Nat) : Nat :=
  if m == 2 then (if leap_year y then 29 else 28)
  else if m == 4 || m == 6 || m == 9 || m == 11 then 30
  else 31

/-- `str.split(sep)` for a one-character separator, on the character list of
a Python string: splits into (possibly empty) groups. -/
def splitOnChar (sep : Char) : List Char → List (List Char)
  | [] => [[]]
  | c :: rest =>
    match splitOnChar sep rest with
    | [] => [[]]
    | g :: gs => if c = sep then [] :: g :: gs else (c :: g) :: gs

/-- Value of a decimal digit character, `none` on anything else. -/
def charDigit? (c : Char) : Option Nat :=
  if '0' ≤ c ∧ c ≤ '9' then some (c.toNat - '0'.toNat) else none

/-- Unsigned decimal numeral: `none` when empty or containing a non-digit. -/
def parseDigits (cs : List Char) : Option Nat :=
  if cs.isEmpty then none
  else cs.foldl
    (fun acc c =>
      match acc, charDigit? c with
      | some n, some d => some (10 * n + d)
      | _, _ => none)
    (some 0)

/-- Python `int(s)` restricted to the shapes the time-card inputs use: an
optional sign followed by decimal digits; `none` models the `ValueError`. -/
def pyInt? (cs : List Char) : Option Int :=
  match cs with
  | '-' :: rest => (parseDigits rest).map (fun n => -(n : Int))
  | '+' :: rest => (parseDigits rest).map (fun n => (n : Int))
  | _ => (parseDigits cs).map (fun n => (n : Int))

/-- `datetime.strptime(date, '%d/%m/%Y')`: split on `/`, require three
numeric fields and a valid calendar day for the month; `none` models the
`ValueError` raised on an unparseable date. -/
def parse_date (s : String) : Option Date :=
  match splitOnChar '/' s.data with
  | [ds, ms, ys] =>
    match parseDigits ds, parseDigits ms, parseDigits ys with
    | some d, some m, some y =>
      if 1 ≤ m ∧ m ≤ 12 ∧ 1 ≤ d ∧ d ≤ days_in_month y m then some ⟨d, m, y⟩
      else none
    | _, _, _ => none
  | _ => none

/-- `convert_time`: parse `hh:mm:ss` into decimal hours
(`h + m / 60.0 + s / 3600.0`); any `ValueError` (wrong number of fields or a
non-integer field) yields `0`. -/
def convert_time (time : String) : ℚ :=
  match splitOnChar ':' time.data with
  | [hs, ms, ss] =>
    match pyInt? hs, pyInt? ms, pyInt? ss with
    | some h, some m, some s => (h : ℚ) + (m : ℚ) / 60 + (s : ℚ) / 3600
    | _, _, _ => 0
  | _ => 0

/-- Integer division of the numerator by the denominator, i.e. the floor of
a non-negative rational. -/
def ratFloorNat (x : ℚ) : ℕ := x.num.toNat / x.den

/-- Integer part of a rational, truncated toward zero, which is how
Python's `math.modf` splits a float. -/
def ratTrunc (x : ℚ) : ℤ :=
  if x < 0 then -(ratFloorNat (-x) : ℤ) else (ratFloorNat x : ℤ)

/-- Python's `math.modf x`: the pair (fractional part, integer part), both
carrying the sign of `x`. -/
def pymodf (x : ℚ) : ℚ × ℚ :=
  (x - (ratTrunc x : ℚ), (ratTrunc x : ℚ))

/-- Python's `abs` on our exact rationals. -/
def ratAbs (x : ℚ) : ℚ := if x < 0 then -x else x

/-- `closest_fraction` of `timecard.py` (textually identical to
`closest_number` of `ptimecard.py`): the closest value whose fractional part
is 0, 0.25, 0.5 or 0.75 according to the 0.875/0.675/0.375/0.125 bands, and
the rounding residual, snapped to 0 when its magnitude is not above
`1.0E-4`. -/
def closest_fraction (x : ℚ) : ℚ × ℚ :=
  let xf := (pymodf x).1
  let xi := (pymodf x).2
  let xt :=
    if xf > 0.875 then (xi + 1) + 0
    else if xf > 0.675 then xi + 0.75
    else if xf > 0.375 then xi + 0.5
    else if xf > 0.125 then xi + 0.25
    else xi + 0
  let dx := if ratAbs (x - xt) > 1.0e-4 then x - xt else 0
  (xt, dx)

/-- Dictionary lookup: the value bound to the key, mirroring Python
`d[k]` / `k in d` (keys are unique, so the first binding is the binding). -/
def lookup {α β : Type} [DecidableEq α] : List (α × β) → α → Option β
  | [], _ => none
  | (k', v) :: rest, k => if k = k' then some v else lookup rest k

/-- `d[k] = d[k] + v if k in d else v` on a dictionary of rationals:
update the binding in place, or append a fresh one at the end. -/
def addQ {α : Type} [DecidableEq α] : List (α × ℚ) → α → ℚ → List (α × ℚ)
  | [], k, v => [(k, v)]
  | (k', v') :: rest, k, v =>
    if k = k' then (k', v' + v) :: rest
    else (k', v') :: addQ rest k v

/-- `d[p] = (old_h + h, old_e + e) if p in d else (h, e)` on the
project-totals dictionary. -/
def addPair : List (String × (ℚ × ℚ)) → String → ℚ → ℚ → List (String × (ℚ × ℚ))
  | [], p, h, e => [(p, (h, e))]
  | (p', v') :: rest, p, h, e =>
    if p = p' then (p', (v'.1 + h, v'.2 + e)) :: rest
    else (p', v') :: addPair rest p h e

/-- The `Totals` aggregation state: `data` is the project×day cell matrix,
`day_totals` and `project_totals` the per-day and per-project accumulators
(hours, and for projects also the carried rounding error), `reference_date`
the date of the first entry whose date parsed. -/
structure Totals where
  data : List ((String × Nat) × ℚ)
  day_totals : List (Nat × ℚ)
  project_totals : List (String × (ℚ × ℚ))
  reference_date : Option Date
deriving DecidableEq, Repr

/-- `Totals.__init__`: all three dictionaries empty, no reference date. -/
def Totals.init : Totals :=
  ⟨[], [], [], none⟩

/-- `Totals.get_project_totals`: (hours, rounding error) for the project, or
`(0, 0)` if it never appeared. -/
def Totals.get_project_totals (t : Totals) (project : String) : ℚ × ℚ :=
  match lookup t.project_totals project with
  | some v => v
  | none => (0, 0)

/-- `Totals.add project date time first_half` of `timecard.py`. The result's
second component records whether the call succeeded: `false` models the
`ValueError` that `strptime` raises on an unparseable date. The raise
happens before any state is touched, so the state at the failure point —
returned in the first component — is the input state unchanged. -/
def Totals.add (t : Totals) (project : String) (date : String) (time : String)
    (first_half : Bool) : Totals × Bool :=
  match parse_date date with
  | none => (t, false)
  | some dt =>
    let t1 : Totals :=
      { t with reference_date := match t.reference_date with
                                 | none => some dt
                                 | some d => some d }
    if dt.day > 15 ∧ first_half then (t1, true)
    else
      let he := closest_fraction (convert_time time)
      let he' :=
        if (t1.get_project_totals project).2 + he.2 > 0.25 then
          (he.1 + 0.25, he.2 - 0.25)
        else he
      let hours := he'.1
      let new_error := he'.2
      ({ t1 with
           project_totals := addPair t1.project_totals project hours new_error,
           day_totals := addQ t1.day_totals dt.day hours,
           data := addQ t1.data (project, dt.day) hours }, true)

/-- `Totals.get_hours`: accumulated hours for a (project, day) cell, 0 when
absent. -/
def Totals.get_hours (t : Totals) (project : String) (day : Nat) : ℚ :=
  match lookup t.data (project, day) with
  | some v => v
  | none => 0

/-- `Totals.get_day_totals`: accumulated hours for a day, 0 when absent. -/
def Totals.get_day_totals (t : Totals) (day : Nat) : ℚ :=
  match lookup t.day_totals day with
  | some v => v
  | none => 0

/-- `Totals.get_total_time`: `sum(self.day_totals.values())`. -/
def Totals.get_total_time (t : Totals) : ℚ :=
  (t.day_totals.map Prod.snd).sum

/-- `Totals.get_number_of_days`: days in the month of the reference date, 0
when no reference date was ever recorded. -/
def Totals.get_number_of_days (t : Totals) : Nat :=
  match t.reference_date with
  | some d => days_in_month d.year d.month
  | none => 0

/-- `Totals.get_project_list`: projects in first-seen order. -/
def Totals.get_project_list (t : Totals) : List String :=
  t.project_totals.map Prod.fst

/-- One raw input row as handed to `Totals.add`. -/
structure Entry where
  project : String
  date : String
  time : String
  first_half : Bool
deriving DecidableEq, Repr

/-- Fold a sequence of `Totals.add` calls over an entry stream, keeping the
state each call leaves behind (a failing call leaves the state untouched,
which is also the state the propagated exception would leave behind). -/
def runAdds (t : Totals) : List Entry → Totals
  | [] => t
  | e :: rest => runAdds (t.add e.project e.date e.time e.first_half).1 rest

/-- Modelled from the spec: the five-argument, day-range variant of
`Totals.add` that `ctimecard.process_data` invokes as
`output.add(project, start_date, hours, start_day, end_day)` is not present
in `src/timecard.py`, whose `add` takes a `first_half` flag instead.  Per
§4.3 of the spec this variant parses the date, records it as the reference
date if unset, "discards the entry silently if its day falls outside the
supplied inclusive day range", and otherwise rounds and accumulates exactly
as `Totals.add` does. -/
def Totals.add_range (t : Totals) (project : String) (date : String) (time : String)
    (start_day end_day : Nat) : Totals × Bool :=
  match parse_date date with
  | none => (t, false)
  | some dt =>
    let t1 : Totals :=
      { t with reference_date := match t.reference_date with
                                 | none => some dt
                                 | some d => some d }
    if dt.day < start_day ∨ dt.day > end_day then (t1, true)
    else
      let he := closest_fraction (convert_time time)
      let he' :=
        if (t1.get_project_totals project).2 + he.2 > 0.25 then
          (he.1 + 0.25, he.2 - 0.25)
        else he
      let hours := he'.1
      let new_error := he'.2
      ({ t1 with
           project_totals := addPair t1.project_totals project hours new_error,
           day_totals := addQ t1.day_totals dt.day hours,
           data := addQ t1.data (project, dt.day) hours }, true)

/-- The single-letter column alphabet shared by `column_name`
(`timecard.py`) and `excel_column_name` (`ptimecard.py`). -/
def column_list : List String :=
  ["A", "B", "C", "D", "E", "F", "G", "H", "I",
   "J", "K", "L", "M", "N", "O", "P", "Q", "R",
   "S", "T", "U", "V", "W", "X", "Y", "Z"]

/-- `column_name` of `timecard.py`: single letters only; `none` models the
`ValueError` raised for column numbers at or past 26. -/
def column_name (column_number : Nat) : Option String :=
  if column_number < column_list.length then
    some (column_list.getD column_number "")
  else none

/-- `excel_column_name` of `ptimecard.py`: single letters below 26, then
double letters; `none` models the `ValueError` raised when
`r = column_number // 26` exceeds 26.  (In the double-letter branch both
indices `r - 1` and `column_number - 26 * r = column_number % 26` are
always below 26, so the `getD` defaults are never taken and indexing never
fails.) -/
def excel_column_name (column_number : Nat) : Option String :=
  let max_columns := column_list.length
  if column_number < max_columns then
    some (column_list.getD column_number "")
  else
    let r := column_number / max_columns
    if r > max_columns then none
    else some (column_list.getD (r - 1) "" ++
               column_list.getD (column_number - max_columns * r) "")

/-- The rounded value in the claim's own words: for fractional part `f` of
a value with integer part `n`, "`n+1` if `f > 0.875`, `n+0.75` if
`0.675 < f <= 0.875`, `n+0.5` if `0.375 < f <= 0.675`, `n+0.25` if
`0.125 < f <= 0.375`, and `n` if `f <= 0.125`". -/
def spec_rounded (n : ℤ) (f : ℚ) : ℚ :=
  if 0.875 < f then (n : ℚ) + 1
  else if 0.675 < f ∧ f ≤ 0.875 then (n : ℚ) + 0.75
  else if 0.375 < f ∧ f ≤ 0.675 then (n : ℚ) + 0.5
  else if 0.125 < f ∧ f ≤ 0.375 then (n : ℚ) + 0.25
  else (n : ℚ)

/-- The residual in the claim's own words: "`residual = x - rounded` except
it is exactly 0 when `|x - rounded| < 1e-4`" — with a strict comparison at
the boundary. -/
def spec_residual_lt (x rounded : ℚ) : ℚ :=
  if |x - rounded| < 1.0e-4 then 0 else x - rounded

/-- The residual with the boundary the code actually implements: exactly 0
when `|x - rounded| ≤ 1e-4` (the code zeroes the residual unless
`abs(x - xt) > 1.0E-4`). -/
def spec_residual_le (x rounded : ℚ) : ℚ :=
  if |x - rounded| ≤ 1.0e-4 then 0 else x - rounded

/-- Whether `Totals.add` would get past the date parse and the day filter
for this entry (the filter depends only on the entry itself). -/
def entry_processed (e : Entry) : Bool :=
  match parse_date e.date with
  | none => false
  | some dt => !(decide (dt.day > 15) && e.first_half)

/-- Sum of the raw (unrounded) durations of the entries for project `p`
that `Totals.add` actually accumulates (date parsed, day filter passed). -/
def raw_hours (p : String) : List Entry → ℚ
  | [] => 0
  | e :: rest =>
    (if e.project = p ∧ entry_processed e = true then convert_time e.time else 0) +
      raw_hours p rest

/-- A rational on the quarter-hour lattice: an integer multiple of 0.25. -/
def IsQuarter (q : ℚ) : Prop := ∃ k : ℤ, q = (k : ℚ) / 4

/-! ### Shape of a single `Totals.add` call -/

/-- The error-carry adjustment inside `Totals.add` (lines 36–38 of
`timecard.py`): starting from the rounder's `(hours, error)` output `hr`
and the project's accumulated error `e`, bump the hours by a quarter and
pay a quarter off the error once the combined error exceeds 0.25. -/
def carry_step (e : ℚ) (hr : ℚ × ℚ) : ℚ × ℚ :=
  if e + hr.2 > 0.25 then (hr.1 + 0.25, hr.2 - 0.25) else hr

/-- The reference-date update at the top of `Totals.add`: set it if unset. -/
def ref_update (t : Totals) (dt : Date) : Option Date :=
  match t.reference_date with
  | none => some dt
  | some d => some d

theorem add_of_parse_fail {t : Totals} {p date tm : String} {fh : Bool}
    (hp : parse_date date = none) : t.add p date tm fh = (t, false) := by
  simp only [Totals.add, hp]

theorem add_of_filtered {t : Totals} {p date tm : String} {fh : Bool} {dt : Date}
    (hp : parse_date date = some dt) (hf : 15 < dt.day ∧ fh = true) :
    t.add p date tm fh = ({ t with reference_date := ref_update t dt }, true) := by
  simp only [Totals.add, hp, ref_update]
  rw [if_pos hf]

theorem add_of_processed {t : Totals} {p date tm : String} {fh : Bool} {dt : Date}
    (hp : parse_date date = some dt) (hf : ¬(15 < dt.day ∧ fh = true)) :
    t.add p date tm fh =
      ({ data := addQ t.data (p, dt.day)
            (carry_step (t.get_project_totals p).2
              (closest_fraction (convert_time tm))).1,
         day_totals := addQ t.day_totals dt.day
            (carry_step (t.get_project_totals p).2
              (closest_fraction (convert_time tm))).1,
         project_totals := addPair t.project_totals p
            (carry_step (t.get_project_totals p).2
              (closest_fraction (convert_time tm))).1
            (carry_step (t.get_project_totals p).2
              (closest_fraction (convert_time tm))).2,
         reference_date := ref_update t dt }, true) := by
  simp only [Totals.add, hp, ref_update, carry_step]
  rw [if_neg hf]
  rfl

/-- The carry adjustment moves a quarter hour between the two components
but never changes their sum. -/
theorem carry_step_sum (e : ℚ) (hr : ℚ × ℚ) :
    (carry_step e hr).1 + (carry_step e hr).2 = hr.1 + hr.2 := by
  rw [carry_step]
  split_ifs <;> ring

/-! ### Getter bridges -/

theorem get_hours_eq (t : Totals) (p : String) (d : ℕ) :
    t.get_hours p d = (lookup t.data (p, d)).getD 0 := by
  rw [Totals.get_hours]
  cases lookup t.data (p, d) <;> rfl

theorem get_day_totals_eq (t : Totals) (d : ℕ) :
    t.get_day_totals d = (lookup t.day_totals d).getD 0 := by
  rw [Totals.get_day_totals]
  cases lookup t.day_totals d <;> rfl

theorem get_project_totals_eq (t : Totals) (p : String) :
    t.get_project_totals p = (lookup t.project_totals p).getD (0, 0) := by
  rw [Totals.get_project_totals]
  cases lookup t.project_totals p <;> rfl

/-! ### Invariants along an entry stream -/

theorem runAdds_invariant {P : Totals → Prop}
    (hP : ∀ (t : Totals) (e : Entry),
      P t → P ((t.add e.project e.date e.time e.first_half).1)) :
    ∀ (es : List Entry) (t : Totals), P t → P (runAdds t es) := by
  intro es
  induction es with
  | nil => intro t h; exact h
  | cons e rest ih => intro t h; exact ih _ (hP t e h)

end Timecard

namespace Timecard

example : parse_date "01/06/2024" = some ⟨1, 6, 2024⟩ := by with_unfolding_all decide
example : parse_date "31/02/2024" = none := by with_unfolding_all decide
example : parse_date "garbage" = none := by with_unfolding_all decide
example : convert_time "2:10:00" = 13/6 := by with_unfolding_all decide
example : closest_fraction (13/6) = (9/4, -1/12) := by with_unfolding_all decide
example : closest_fraction (-1/4) = (0, -1/4) := by with_unfolding_all decide
example : closest_fraction (1/10000) = (0, 0) := by with_unfolding_all decide
example :
    (runAdds Totals.init
      [⟨"Alpha", "01/06/2024", "2:10:00", true⟩,
       ⟨"Alpha", "01/06/2024", "0:10:00", true⟩,
       ⟨"Beta", "02/06/2024", "4:00:00", true⟩]).get_total_time = 13/2 := by
  with_unfolding_all decide
example :
    ((runAdds Totals.init
      [⟨"P", "01/06/2024", "0:09:00", false⟩,
       ⟨"P", "01/06/2024", "0:09:00", false⟩,
       ⟨"P", "01/06/2024", "0:09:00", false⟩]).get_project_totals "P")
      = (3/4, -3/10) := by
  with_unfolding_all decide

/-! ### Association-list (Python dictionary) lemmas -/

theorem lookup_addQ_self {α : Type} [DecidableEq α] (m : List (α × ℚ)) (k : α) (v : ℚ) :
    lookup (addQ m k v) k = some ((lookup m k).getD 0 + v) := by
  induction m with
  | nil => simp [addQ, lookup]
  | cons kv rest ih =>
    obtain ⟨k', v'⟩ := kv
    by_cases h : k = k'
    · subst h; simp [addQ, lookup]
    · simp [addQ, lookup, h, ih]

theorem lookup_addQ_other {α : Type} [DecidableEq α] (m : List (α × ℚ)) {k k₂ : α} (v : ℚ)
    (hk : k₂ ≠ k) : lookup (addQ m k v) k₂ = lookup m k₂ := by
  induction m with
  | nil => simp [addQ, lookup, hk]
  | cons kv rest ih =>
    obtain ⟨k', v'⟩ := kv
    by_cases h : k = k'
    · subst h; simp [addQ, lookup, hk]
    · by_cases h2 : k₂ = k'
      · subst h2; simp [addQ, lookup, h]
      · simp [addQ, lookup, h, h2, ih]

theorem sum_addQ {α : Type} [DecidableEq α] (m : List (α × ℚ)) (k : α) (v : ℚ) :
    ((addQ m k v).map Prod.snd).sum = (m.map Prod.snd).sum + v := by
  induction m with
  | nil => simp [addQ]
  | cons kv rest ih =>
    obtain ⟨k', v'⟩ := kv
    by_cases h : k = k'
    · subst h; simp [addQ]; ring
    · simp [addQ, h, ih]; ring

theorem mem_addQ {α : Type} [DecidableEq α] {m : List (α × ℚ)} {k : α} {v : ℚ}
    {kv : α × ℚ} (hm : kv ∈ addQ m k v) :
    kv ∈ m ∨ kv.2 = (lookup m k).getD 0 + v := by
  induction m with
  | nil =>
    rcases List.mem_singleton.mp hm with rfl
    right; simp [lookup]
  | cons kv' rest ih =>
    obtain ⟨k', v'⟩ := kv'
    simp only [addQ] at hm
    by_cases h : k = k'
    · rw [if_pos h] at hm
      rcases List.mem_cons.mp hm with rfl | hm2
      · right; subst h; simp [lookup]
      · left; exact List.mem_cons_of_mem _ hm2
    · rw [if_neg h] at hm
      rcases List.mem_cons.mp hm with rfl | hm2
      · left; exact List.mem_cons_self _ _
      · rcases ih hm2 with h1 | h1
        · left; exact List.mem_cons_of_mem _ h1
        · right; rw [h1]; simp [lookup, h]

theorem lookup_addPair_self (m : List (String × (ℚ × ℚ))) (p : String) (h e : ℚ) :
    lookup (addPair m p h e) p =
      some (((lookup m p).getD (0, 0)).1 + h, ((lookup m p).getD (0, 0)).2 + e) := by
  induction m with
  | nil => simp [addPair, lookup]
  | cons kv rest ih =>
    obtain ⟨p', v'⟩ := kv
    by_cases hp : p = p'
    · subst hp; simp [addPair, lookup]
    · simp [addPair, lookup, hp, ih]

theorem lookup_addPair_other (m : List (String × (ℚ × ℚ))) {p p₂ : String} (h e : ℚ)
    (hp : p₂ ≠ p) : lookup (addPair m p h e) p₂ = lookup m p₂ := by
  induction m with
  | nil => simp [addPair, lookup, hp]
  | cons kv rest ih =>
    obtain ⟨p', v'⟩ := kv
    by_cases h1 : p = p'
    · subst h1; simp [addPair, lookup, hp]
    · by_cases h2 : p₂ = p'
      · subst h2; simp [addPair, lookup, h1]
      · simp [addPair, lookup, h1, h2, ih]

theorem sumHours_addPair (m : List (String × (ℚ × ℚ))) (p : String) (h e : ℚ) :
    ((addPair m p h e).map (fun kv => kv.2.1)).sum =
      (m.map (fun kv => kv.2.1)).sum + h := by
  induction m with
  | nil => simp [addPair]
  | cons kv rest ih =>
    obtain ⟨p', v'⟩ := kv
    by_cases h1 : p = p'
    · subst h1; simp [addPair]; ring
    · simp [addPair, h1, ih]; ring

theorem mem_addPair {m : List (String × (ℚ × ℚ))} {p : String} {h e : ℚ}
    {kv : String × (ℚ × ℚ)} (hm : kv ∈ addPair m p h e) :
    kv ∈ m ∨ kv.2 = (((lookup m p).getD (0, 0)).1 + h, ((lookup m p).getD (0, 0)).2 + e) := by
  induction m with
  | nil =>
    rcases List.mem_singleton.mp hm with rfl
    right; simp [lookup]
  | cons kv' rest ih =>
    obtain ⟨p', v'⟩ := kv'
    simp only [addPair] at hm
    by_cases h1 : p = p'
    · rw [if_pos h1] at hm
      rcases List.mem_cons.mp hm with rfl | hm2
      · right; subst h1; simp [lookup]
      · left; exact List.mem_cons_of_mem _ hm2
    · rw [if_neg h1] at hm
      rcases List.mem_cons.mp hm with rfl | hm2
      · left; exact List.mem_cons_self _ _
      · rcases ih hm2 with h2 | h2
        · left; exact List.mem_cons_of_mem _ h2
        · right; rw [h2]; simp [lookup, h1]

theorem lookup_mem {α β : Type} [DecidableEq α] {m : List (α × β)} {k : α} {v : β}
    (h : lookup m k = some v) : (k, v) ∈ m := by
  induction m with
  | nil => simp [lookup] at h
  | cons kv rest ih =>
    obtain ⟨k', v'⟩ := kv
    simp only [lookup] at h
    by_cases h1 : k = k'
    · rw [if_pos h1] at h
      have h2 := Option.some.inj h
      subst h2; subst h1
      exact List.mem_cons_self _ _
    · rw [if_neg h1] at h
      exact List.mem_cons_of_mem _ (ih h)

/-! ### Truncation and rounding lemmas -/

theorem ratFloorNat_eq_floor {x : ℚ} (hx : 0 ≤ x) : (ratFloorNat x : ℤ) = ⌊x⌋ := by
  rw [ratFloorNat, Rat.floor_def, Int.natCast_div,
    Int.toNat_of_nonneg (Rat.num_nonneg.mpr hx)]

theorem ratTrunc_eq_floor {x : ℚ} (hx : 0 ≤ x) : ratTrunc x = ⌊x⌋ := by
  rw [ratTrunc, if_neg (not_lt.mpr hx)]
  exact ratFloorNat_eq_floor hx

theorem ratTrunc_eq_ceil {x : ℚ} (hx : x < 0) : ratTrunc x = ⌈x⌉ := by
  rw [ratTrunc, if_pos hx, ratFloorNat_eq_floor (by linarith : (0:ℚ) ≤ -x), Int.floor_neg]
  simp

theorem frac_bounds_nonneg {x : ℚ} (hx : 0 ≤ x) :
    0 ≤ x - (ratTrunc x : ℚ) ∧ x - (ratTrunc x : ℚ) < 1 := by
  rw [ratTrunc_eq_floor hx]
  constructor
  · have h := Int.floor_le x
    linarith
  · have h := Int.lt_floor_add_one x
    push_cast at h
    linarith

theorem frac_bounds_neg {x : ℚ} (hx : x < 0) :
    -1 < x - (ratTrunc x : ℚ) ∧ x - (ratTrunc x : ℚ) ≤ 0 := by
  rw [ratTrunc_eq_ceil hx]
  constructor
  · have h := Int.ceil_lt_add_one x
    push_cast at h
    linarith
  · have h := Int.le_ceil x
    linarith

theorem ratAbs_eq_abs (q : ℚ) : ratAbs q = |q| := by
  rw [ratAbs]
  split_ifs with h
  · exact (abs_of_neg h).symm
  · exact (abs_of_nonneg (not_lt.mp h)).symm

/-- The new residual produced by the rounder is at most `0.675 - 0.5`,
whatever the input (the worst case is a fractional part just at the top of
the `0.5` band). -/
theorem closest_fraction_snd_le (x : ℚ) : (closest_fraction x).2 ≤ 7/40 := by
  simp only [closest_fraction]
  rcases le_or_lt 0 x with hx | hx
  · obtain ⟨h1, h2⟩ := frac_bounds_nonneg hx
    simp only [pymodf]
    split_ifs <;> linarith
  · obtain ⟨h1, h2⟩ := frac_bounds_neg hx
    simp only [pymodf]
    split_ifs <;> linarith

/-- The rounded value always lies on the quarter-hour lattice. -/
theorem closest_fraction_fst_quarter (x : ℚ) : IsQuarter (closest_fraction x).1 := by
  simp only [closest_fraction, pymodf]
  split_ifs
  · exact ⟨4 * ratTrunc x + 4, by push_cast; ring⟩
  · exact ⟨4 * ratTrunc x + 3, by push_cast; ring⟩
  · exact ⟨4 * ratTrunc x + 2, by push_cast; ring⟩
  · exact ⟨4 * ratTrunc x + 1, by push_cast; ring⟩
  · exact ⟨4 * ratTrunc x, by push_cast; ring⟩

theorem IsQuarter.zero : IsQuarter 0 := ⟨0, by norm_num⟩

theorem IsQuarter.add {a b : ℚ} (ha : IsQuarter a) (hb : IsQuarter b) :
    IsQuarter (a + b) := by
  obtain ⟨k, rfl⟩ := ha
  obtain ⟨l, rfl⟩ := hb
  exact ⟨k + l, by push_cast; ring⟩

theorem IsQuarter.add_quarter {a : ℚ} (ha : IsQuarter a) : IsQuarter (a + 0.25) :=
  ha.add ⟨1, by norm_num⟩

/-- The residual is either exactly `x` minus the rounded value, or zero
with `x` within `1e-4` of the rounded value. -/
theorem closest_fraction_snd_eq (x : ℚ) :
    (closest_fraction x).2 =
      if ratAbs (x - (closest_fraction x).1) > 1.0e-4 then x - (closest_fraction x).1
      else 0 := rfl

theorem closest_fraction_snd_cases (x : ℚ) :
    (closest_fraction x).2 = x - (closest_fraction x).1 ∨
    ((closest_fraction x).2 = 0 ∧ |x - (closest_fraction x).1| ≤ 1.0e-4) := by
  rw [closest_fraction_snd_eq]
  split_ifs with h
  · left; rfl
  · right
    rw [ratAbs_eq_abs] at h
    exact ⟨rfl, not_lt.mp h⟩

/-- Any value of the form `h + m/60 + s/3600` is a whole number of seconds
over 3600. -/
theorem hms_form (h m s : ℤ) :
    ∃ n : ℤ, (h : ℚ) + (m : ℚ) / 60 + (s : ℚ) / 3600 = (n : ℚ) / 3600 :=
  ⟨3600 * h + 60 * m + s, by push_cast; ring⟩

/-- `convert_time` always returns an integer number of seconds over 3600. -/
theorem convert_time_form (tm : String) : ∃ n : ℤ, convert_time tm = (n : ℚ) / 3600 := by
  rw [convert_time]
  split
  · split
    · exact hms_form _ _ _
    · exact ⟨0, by norm_num⟩
  · exact ⟨0, by norm_num⟩

/-- On inputs that are whole numbers of seconds the `1e-4` snap can only
fire when the residual is exactly zero, so rounded plus residual is exactly
the input: no time is lost or gained beyond what the residual records. -/
theorem closest_fraction_exact {x : ℚ} (hden : ∃ n : ℤ, x = (n : ℚ) / 3600) :
    (closest_fraction x).1 + (closest_fraction x).2 = x := by
  obtain ⟨n, rfl⟩ := hden
  set x : ℚ := (n : ℚ) / 3600 with hx
  obtain ⟨k, hk⟩ := closest_fraction_fst_quarter x
  rcases closest_fraction_snd_cases x with h | ⟨h0, habs⟩
  · rw [h]; ring
  · rw [h0, hk]
    have hdiff : x - (closest_fraction x).1 = ((n - 900 * k : ℤ) : ℚ) / 3600 := by
      rw [hk, hx]; push_cast; ring
    rw [hdiff] at habs
    have habs2 : |((n - 900 * k : ℤ) : ℚ)| ≤ 36/100 := by
      rw [abs_div] at habs
      norm_num at habs ⊢
      linarith
    have hlt : -1 < n - 900 * k ∧ n - 900 * k < 1 := by
      have h1 : |((n - 900 * k : ℤ) : ℚ)| < 1 := lt_of_le_of_lt habs2 (by norm_num)
      rw [← Int.cast_abs] at h1
      have h2 : |n - 900 * k| < 1 := by exact_mod_cast h1
      exact abs_lt.mp h2
    have hz : n - 900 * k = 0 := by omega
    have hn : (n : ℚ) = 900 * k := by exact_mod_cast sub_eq_zero.mp hz
    rw [hx, hn]
    ring

/-! ### C1: sum conservation -/

/-- Each `add` call preserves equality of the day-totals sum and the
project-hours sum: a processed entry adds the same rounded `hours` to one
binding of each dictionary. -/
theorem sum_conservation_step :
    ∀ (t : Totals) (e : Entry),
      (t.day_totals.map Prod.snd).sum
        = (t.project_totals.map (fun kv => kv.2.1)).sum →
      (((t.add e.project e.date e.time e.first_half).1).day_totals.map Prod.snd).sum
        = (((t.add e.project e.date e.time e.first_half).1).project_totals.map
            (fun kv => kv.2.1)).sum := by
  intro t e h
  rcases hp : parse_date e.date with _ | dt
  · rw [add_of_parse_fail hp]; exact h
  · by_cases hf : 15 < dt.day ∧ e.first_half = true
    · rw [add_of_filtered hp hf]; exact h
    · rw [add_of_processed hp hf]
      dsimp only
      rw [sum_addQ, sumHours_addPair, h]

/-- C1: after any sequence of `Totals.add` calls (with any day-filter
argument on each call), the sum of all `day_totals` values equals the sum
of the hours components of all `project_totals` values, and
`get_total_time` — defined as the sum of `day_totals` — equals that same
project-total sum. -/
theorem sum_conservation (entries : List Entry) :
    ((runAdds Totals.init entries).day_totals.map Prod.snd).sum
      = ((runAdds Totals.init entries).project_totals.map (fun kv => kv.2.1)).sum
    ∧ (runAdds Totals.init entries).get_total_time
      = ((runAdds Totals.init entries).project_totals.map (fun kv => kv.2.1)).sum := by
  have h := @runAdds_invariant
      (fun t => (t.day_totals.map Prod.snd).sum
        = (t.project_totals.map (fun kv => kv.2.1)).sum)
      sum_conservation_step entries Totals.init (by simp [Totals.init])
  exact ⟨h, h⟩

/-! ### C3: the error-carry policy, per processed entry -/

/-- C3: for an entry that parses and survives the day filter, with `e` the
project's accumulated error before the call and `(h, r)` the rounder's
output, the hours recorded into all three dictionaries are `h + 0.25` with
residual contribution `r - 0.25` when `e + r > 0.25`, and `h` with `r`
unchanged otherwise (this is exactly `carry_step e (h, r)`). -/
theorem error_carry_recording (t : Totals) (project date time : String)
    (first_half : Bool) (dt : Date)
    (hp : parse_date date = some dt)
    (hf : ¬(15 < dt.day ∧ first_half = true)) :
    ((t.add project date time first_half).1).get_hours project dt.day
        = t.get_hours project dt.day
          + (carry_step (t.get_project_totals project).2
              (closest_fraction (convert_time time))).1
    ∧ ((t.add project date time first_half).1).get_day_totals dt.day
        = t.get_day_totals dt.day
          + (carry_step (t.get_project_totals project).2
              (closest_fraction (convert_time time))).1
    ∧ ((t.add project date time first_half).1).get_project_totals project
        = ((t.get_project_totals project).1
            + (carry_step (t.get_project_totals project).2
                (closest_fraction (convert_time time))).1,
           (t.get_project_totals project).2
            + (carry_step (t.get_project_totals project).2
                (closest_fraction (convert_time time))).2) := by
  rw [add_of_processed hp hf]
  simp only [get_hours_eq, get_day_totals_eq, get_project_totals_eq]
  simp only [lookup_addQ_self, lookup_addPair_self, Option.getD_some]
  exact ⟨trivial, trivial, trivial⟩

/-- Witness for C3 at a concrete call: a 0:40:30 entry (0.675 h) for a
fresh project on day 20 with the filter off is recorded as 0.5 h with
residual 0.175. -/
theorem error_carry_recording_witness :
    ((Totals.init.add "A" "20/06/2024" "0:40:30" false).1).get_project_totals "A"
      = (1/2, 7/40) := by
  have h := error_carry_recording Totals.init "A" "20/06/2024" "0:40:30" false
    ⟨20, 6, 2024⟩ (by with_unfolding_all decide) (by decide)
  rw [h.2.2]
  with_unfolding_all decide

/-! ### C8: a failing `add` mutates nothing -/

/-- C8: whenever `Totals.add` fails, the failure is the date-parse error
raised before any mutation, and the state — `data`, `day_totals`,
`project_totals` and `reference_date` alike — is exactly the input state. -/
theorem add_failure_no_mutation (t : Totals) (project date time : String)
    (first_half : Bool)
    (hfail : (t.add project date time first_half).2 = false) :
    (t.add project date time first_half).1 = t ∧ parse_date date = none := by
  rcases hp : parse_date date with _ | dt
  · rw [add_of_parse_fail hp]
    exact ⟨rfl, rfl⟩
  · exfalso
    by_cases hf : 15 < dt.day ∧ first_half = true
    · rw [add_of_filtered hp hf] at hfail
      simp at hfail
    · rw [add_of_processed hp hf] at hfail
      simp at hfail

/-- Witness for C8: an unparseable date string fails and leaves a
previously accumulated state untouched. -/
theorem add_failure_no_mutation_witness :
    ((runAdds Totals.init [⟨"A", "01/06/2024", "2:10:00", true⟩]).add
        "A" "bad-date" "1:00:00" true).1
      = runAdds Totals.init [⟨"A", "01/06/2024", "2:10:00", true⟩]
    ∧ parse_date "bad-date" = none :=
  add_failure_no_mutation _ "A" "bad-date" "1:00:00" true
    (by with_unfolding_all decide)

/-! ### C5: the inclusive day-range filter (spec-modelled `add_range`) -/

/-- C5: an entry whose parsed day lies outside the inclusive
`[start_day, end_day]` range is discarded silently by the day-range `add`:
the call succeeds (no error) and none of `data` (so no `get_hours` cell),
`day_totals` or `project_totals` changes. -/
theorem day_range_filter_discards (t : Totals) (project date time : String)
    (start_day end_day : Nat) (dt : Date)
    (hp : parse_date date = some dt)
    (hout : dt.day < start_day ∨ dt.day > end_day) :
    (t.add_range project date time start_day end_day).2 = true
    ∧ (t.add_range project date time start_day end_day).1.data = t.data
    ∧ (t.add_range project date time start_day end_day).1.day_totals = t.day_totals
    ∧ (t.add_range project date time start_day end_day).1.project_totals
        = t.project_totals
    ∧ ∀ (p : String) (d : Nat),
        (t.add_range project date time start_day end_day).1.get_hours p d
          = t.get_hours p d := by
  simp only [Totals.add_range, hp]
  rw [if_pos hout]
  exact ⟨rfl, rfl, rfl, rfl, fun p d => rfl⟩

/-- Witness for C5: day 20 is outside [1, 15], so the entry changes no
dictionary and raises no error. -/
theorem day_range_filter_discards_witness :
    (Totals.init.add_range "A" "20/06/2024" "2:10:00" 1 15).2 = true
    ∧ (Totals.init.add_range "A" "20/06/2024" "2:10:00" 1 15).1.data = Totals.init.data
    ∧ (Totals.init.add_range "A" "20/06/2024" "2:10:00" 1 15).1.day_totals
        = Totals.init.day_totals
    ∧ (Totals.init.add_range "A" "20/06/2024" "2:10:00" 1 15).1.project_totals
        = Totals.init.project_totals
    ∧ ∀ (p : String) (d : Nat),
        (Totals.init.add_range "A" "20/06/2024" "2:10:00" 1 15).1.get_hours p d
          = Totals.init.get_hours p d :=
  day_range_filter_discards Totals.init "A" "20/06/2024" "2:10:00" 1 15
    ⟨20, 6, 2024⟩ (by with_unfolding_all decide) (by decide)


/-! ### C4: the error-carry bound -/

theorem entry_processed_true_iff (e : Entry) {dt : Date}
    (hp : parse_date e.date = some dt) :
    entry_processed e = true ↔ ¬(15 < dt.day ∧ e.first_half = true) := by
  cases hb : e.first_half <;> simp [entry_processed, hp, hb]

theorem entry_processed_false_of_fail {e : Entry}
    (hp : parse_date e.date = none) : entry_processed e = false := by
  simp [entry_processed, hp]

/-- One `add` call grows a project's hours-plus-error exactly by the raw
duration of the entry when the entry is for that project and is processed,
and not at all otherwise. -/
theorem add_project_sum (t : Totals) (e : Entry) (p : String) :
    (((t.add e.project e.date e.time e.first_half).1).get_project_totals p).1
      + (((t.add e.project e.date e.time e.first_half).1).get_project_totals p).2
      = (t.get_project_totals p).1 + (t.get_project_totals p).2
        + (if e.project = p ∧ entry_processed e = true then convert_time e.time
           else 0) := by
  rcases hp : parse_date e.date with _ | dt
  · rw [add_of_parse_fail hp]
    simp [entry_processed_false_of_fail hp]
  · by_cases hf : 15 < dt.day ∧ e.first_half = true
    · have hep : entry_processed e = false := by
        simp [entry_processed, hp, hf.1, hf.2]
      rw [add_of_filtered hp hf]
      simp only [get_project_totals_eq]
      simp [hep]
    · by_cases hpp : e.project = p
      · subst hpp
        have hep : entry_processed e = true := (entry_processed_true_iff e hp).mpr hf
        rw [add_of_processed hp hf]
        simp only [get_project_totals_eq]
        rw [lookup_addPair_self, Option.getD_some]
        simp only [hep, eq_self_iff_true, and_self, if_true]
        have hsum : (carry_step (t.get_project_totals e.project).2
              (closest_fraction (convert_time e.time))).1
            + (carry_step (t.get_project_totals e.project).2
              (closest_fraction (convert_time e.time))).2
            = convert_time e.time := by
          rw [carry_step_sum]
          exact closest_fraction_exact (convert_time_form e.time)
        rw [get_project_totals_eq] at hsum
        linarith
      · rw [add_of_processed hp hf]
        simp only [get_project_totals_eq]
        rw [lookup_addPair_other _ _ _ (Ne.symm hpp)]
        simp [hpp]

theorem runAdds_project_sum (es : List Entry) : ∀ (t : Totals) (p : String),
    ((runAdds t es).get_project_totals p).1 + ((runAdds t es).get_project_totals p).2
      = (t.get_project_totals p).1 + (t.get_project_totals p).2 + raw_hours p es := by
  induction es with
  | nil =>
    intro t p
    rw [runAdds, raw_hours]
    ring
  | cons e rest ih =>
    intro t p
    rw [runAdds, raw_hours, ih]
    have h := add_project_sum t e p
    linarith

theorem proj_error_le_of_inv {t : Totals}
    (hI : ∀ kv ∈ t.project_totals, kv.2.2 ≤ 0.25) (p : String) :
    (t.get_project_totals p).2 ≤ 0.25 := by
  rw [get_project_totals_eq]
  cases h : lookup t.project_totals p with
  | none => norm_num
  | some v => simpa using hI (p, v) (lookup_mem h)

/-- One `add` call keeps every stored project error at or below a quarter
hour: if the combined error was within the bound the guard records it as
is, and if it overflowed the bound the recorded error is the rounder's
residual (at most 0.175) minus a quarter. -/
theorem error_bound_step :
    ∀ (t : Totals) (e : Entry),
      (∀ kv ∈ t.project_totals, kv.2.2 ≤ 0.25) →
      ∀ kv ∈ ((t.add e.project e.date e.time e.first_half).1).project_totals,
        kv.2.2 ≤ 0.25 := by
  intro t e hI
  rcases hp : parse_date e.date with _ | dt
  · rw [add_of_parse_fail hp]; exact hI
  · by_cases hf : 15 < dt.day ∧ e.first_half = true
    · rw [add_of_filtered hp hf]; exact hI
    · rw [add_of_processed hp hf]
      intro kv hkv
      dsimp only at hkv
      rcases mem_addPair hkv with hm | hval
      · exact hI kv hm
      · rw [hval]
        dsimp only
        have hE : ((lookup t.project_totals e.project).getD (0, 0)).2
            = (t.get_project_totals e.project).2 := by
          rw [get_project_totals_eq]
        rw [hE]
        have hEb := proj_error_le_of_inv hI e.project
        have hrb := closest_fraction_snd_le (convert_time e.time)
        rw [carry_step]
        split_ifs with hc
        · dsimp only; linarith
        · linarith

/-- C4 (amended): for every project and any entry stream, the accumulated
residual error in `project_totals` equals the raw-duration sum minus the
recorded rounded-hour sum, and it never exceeds +0.25; the original
two-sided bound `|raw - rounded| ≤ 0.25` fails (see the counterexample):
the carry policy only compensates overshoot, so negative drift is
unbounded. -/
theorem project_error_carry_bound (entries : List Entry) (p : String) :
    raw_hours p entries - ((runAdds Totals.init entries).get_project_totals p).1
      = ((runAdds Totals.init entries).get_project_totals p).2
    ∧ ((runAdds Totals.init entries).get_project_totals p).2 ≤ 0.25 := by
  constructor
  · have h := runAdds_project_sum entries Totals.init p
    have h0 : Totals.init.get_project_totals p = (0, 0) := rfl
    rw [h0] at h
    dsimp only at h
    linarith
  · exact proj_error_le_of_inv
      (@runAdds_invariant (fun t => ∀ kv ∈ t.project_totals, kv.2.2 ≤ 0.25)
        error_bound_step entries Totals.init (by simp [Totals.init])) p

/-- Counterexample to C4 as stated: three 9-minute entries (0.15 h each,
all rounded up to 0.25) leave project "P" with recorded hours 0.75 against
raw hours 0.45, so the absolute difference — and the absolute accumulated
residual — is 0.3 > 0.25. -/
theorem project_error_bound_counterexample :
    ((runAdds Totals.init
        [⟨"P", "01/06/2024", "0:09:00", false⟩,
         ⟨"P", "01/06/2024", "0:09:00", false⟩,
         ⟨"P", "01/06/2024", "0:09:00", false⟩]).get_project_totals "P")
      = (3/4, -3/10)
    ∧ raw_hours "P"
        [⟨"P", "01/06/2024", "0:09:00", false⟩,
         ⟨"P", "01/06/2024", "0:09:00", false⟩,
         ⟨"P", "01/06/2024", "0:09:00", false⟩] = 9/20
    ∧ ¬(|(9/20 : ℚ) - 3/4| ≤ 0.25) ∧ ¬(|(-3/10 : ℚ)| ≤ 0.25) := by
  refine ⟨by with_unfolding_all decide, by with_unfolding_all decide, ?_, ?_⟩ <;>
    · rw [abs_le]
      norm_num

/-! ### C9: everything accumulated lies on the quarter-hour lattice -/

theorem quarter_inv_step :
    ∀ (t : Totals) (e : Entry),
      ((∀ kv ∈ t.data, IsQuarter kv.2) ∧ (∀ kv ∈ t.day_totals, IsQuarter kv.2)
        ∧ (∀ kv ∈ t.project_totals, IsQuarter kv.2.1)) →
      ((∀ kv ∈ ((t.add e.project e.date e.time e.first_half).1).data, IsQuarter kv.2)
        ∧ (∀ kv ∈ ((t.add e.project e.date e.time e.first_half).1).day_totals,
            IsQuarter kv.2)
        ∧ (∀ kv ∈ ((t.add e.project e.date e.time e.first_half).1).project_totals,
            IsQuarter kv.2.1)) := by
  intro t e h
  obtain ⟨h1, h2, h3⟩ := h
  rcases hp : parse_date e.date with _ | dt
  · rw [add_of_parse_fail hp]; exact ⟨h1, h2, h3⟩
  · by_cases hf : 15 < dt.day ∧ e.first_half = true
    · rw [add_of_filtered hp hf]; exact ⟨h1, h2, h3⟩
    · rw [add_of_processed hp hf]
      have hH : IsQuarter (carry_step (t.get_project_totals e.project).2
          (closest_fraction (convert_time e.time))).1 := by
        rw [carry_step]
        split_ifs
        · exact (closest_fraction_fst_quarter _).add_quarter
        · exact closest_fraction_fst_quarter _
      refine ⟨?_, ?_, ?_⟩
      · intro kv hkv
        dsimp only at hkv
        rcases mem_addQ hkv with hm | hv
        · exact h1 kv hm
        · rw [hv]
          refine IsQuarter.add ?_ hH
          cases hl : lookup t.data (e.project, dt.day) with
          | none => exact IsQuarter.zero
          | some v => simpa using h1 ((e.project, dt.day), v) (lookup_mem hl)
      · intro kv hkv
        dsimp only at hkv
        rcases mem_addQ hkv with hm | hv
        · exact h2 kv hm
        · rw [hv]
          refine IsQuarter.add ?_ hH
          cases hl : lookup t.day_totals dt.day with
          | none => exact IsQuarter.zero
          | some v => simpa using h2 (dt.day, v) (lookup_mem hl)
      · intro kv hkv
        dsimp only at hkv
        rcases mem_addPair hkv with hm | hv
        · exact h3 kv hm
        · rw [hv]
          dsimp only
          refine IsQuarter.add ?_ hH
          cases hl : lookup t.project_totals e.project with
          | none => exact IsQuarter.zero
          | some v => simpa using h3 (e.project, v) (lookup_mem hl)

/-- C9: after any sequence of `Totals.add` calls, every `get_hours` cell,
every day total, and the hours component of every project total is an
integer multiple of 0.25. -/
theorem quarter_lattice_invariant (entries : List Entry) (p : String) (d : ℕ) :
    IsQuarter ((runAdds Totals.init entries).get_hours p d)
    ∧ IsQuarter ((runAdds Totals.init entries).get_day_totals d)
    ∧ IsQuarter (((runAdds Totals.init entries).get_project_totals p).1) := by
  obtain ⟨h1, h2, h3⟩ := @runAdds_invariant
    (fun t => (∀ kv ∈ t.data, IsQuarter kv.2) ∧ (∀ kv ∈ t.day_totals, IsQuarter kv.2)
      ∧ (∀ kv ∈ t.project_totals, IsQuarter kv.2.1))
    quarter_inv_step entries Totals.init (by simp [Totals.init])
  refine ⟨?_, ?_, ?_⟩
  · rw [get_hours_eq]
    cases hl : lookup (runAdds Totals.init entries).data (p, d) with
    | none => exact IsQuarter.zero
    | some v => simpa using h1 ((p, d), v) (lookup_mem hl)
  · rw [get_day_totals_eq]
    cases hl : lookup (runAdds Totals.init entries).day_totals d with
    | none => exact IsQuarter.zero
    | some v => simpa using h2 (d, v) (lookup_mem hl)
  · rw [get_project_totals_eq]
    cases hl : lookup (runAdds Totals.init entries).project_totals p with
    | none => exact IsQuarter.zero
    | some v => simpa using h3 (p, v) (lookup_mem hl)

/-! ### C2 and C7: the rounder against the spec's characterization -/

theorem ratTrunc_natCast_add (n : ℕ) (f : ℚ) (h0 : 0 ≤ f) (h1 : f < 1) :
    ratTrunc ((n : ℚ) + f) = n := by
  have hx : (0:ℚ) ≤ (n : ℚ) + f := add_nonneg (by positivity) h0
  rw [ratTrunc_eq_floor hx,
    show ((n : ℚ) + f) = ((n : ℤ) : ℚ) + f by push_cast; ring,
    Int.floor_int_add, Int.floor_eq_zero_iff.mpr (Set.mem_Ico.mpr ⟨h0, h1⟩)]
  simp

/-- The residual branch of the code is exactly the `≤ 1e-4` snap rule. -/
theorem dx_eq_spec_residual (x R : ℚ) :
    (if ratAbs (x - R) > 1.0e-4 then x - R else 0) = spec_residual_le x R := by
  rw [spec_residual_le, ratAbs_eq_abs]
  rcases le_or_lt |x - R| 1.0e-4 with h | h
  · rw [if_neg (not_lt.mpr h), if_pos h]
  · rw [if_pos h, if_neg (not_le.mpr h)]

/-- C2 (amended): for every non-negative `x = n + f` with integer part `n`
and fractional part `f`, `closest_fraction` returns the rounded value of
the claim's banded table together with `x - rounded`, snapped to exactly 0
when `|x - rounded| ≤ 1e-4` — the snap boundary is inclusive, not the
strict `< 1e-4` of the claim (see the boundary counterexample). -/
theorem quarter_rounder_spec (n : ℕ) (f : ℚ) (h0 : 0 ≤ f) (h1 : f < 1) :
    closest_fraction ((n : ℚ) + f)
      = (spec_rounded n f, spec_residual_le ((n : ℚ) + f) (spec_rounded n f)) := by
  have ht := ratTrunc_natCast_add n f h0 h1
  simp only [closest_fraction, pymodf, ht]
  push_cast
  rw [show (n:ℚ) + f - n = f by ring]
  by_cases c1 : f > (0.875 : ℚ)
  · rw [if_pos c1]
    have hR : spec_rounded n f = ((n : ℚ) + 1) + 0 := by
      rw [spec_rounded, if_pos c1]
      push_cast
      ring
    rw [dx_eq_spec_residual, hR]
  · rw [if_neg c1]
    by_cases c2 : f > (0.675 : ℚ)
    · rw [if_pos c2]
      have hR : spec_rounded n f = (n : ℚ) + 0.75 := by
        rw [spec_rounded, if_neg c1, if_pos ⟨c2, not_lt.mp c1⟩]
        push_cast
        ring
      rw [dx_eq_spec_residual, hR]
    · rw [if_neg c2]
      by_cases c3 : f > (0.375 : ℚ)
      · rw [if_pos c3]
        have hR : spec_rounded n f = (n : ℚ) + 0.5 := by
          rw [spec_rounded, if_neg c1,
            if_neg (show ¬((0.675:ℚ) < f ∧ f ≤ 0.875) from fun h => c2 h.1),
            if_pos ⟨c3, not_lt.mp c2⟩]
          push_cast
          ring
        rw [dx_eq_spec_residual, hR]
      · rw [if_neg c3]
        by_cases c4 : f > (0.125 : ℚ)
        · rw [if_pos c4]
          have hR : spec_rounded n f = (n : ℚ) + 0.25 := by
            rw [spec_rounded, if_neg c1,
              if_neg (show ¬((0.675:ℚ) < f ∧ f ≤ 0.875) from fun h => c2 h.1),
              if_neg (show ¬((0.375:ℚ) < f ∧ f ≤ 0.675) from fun h => c3 h.1),
              if_pos ⟨c4, not_lt.mp c3⟩]
            push_cast
            ring
          rw [dx_eq_spec_residual, hR]
        · rw [if_neg c4]
          have hR : spec_rounded n f = (n : ℚ) + 0 := by
            rw [spec_rounded, if_neg c1,
              if_neg (show ¬((0.675:ℚ) < f ∧ f ≤ 0.875) from fun h => c2 h.1),
              if_neg (show ¬((0.375:ℚ) < f ∧ f ≤ 0.675) from fun h => c3 h.1),
              if_neg (show ¬((0.125:ℚ) < f ∧ f ≤ 0.375) from fun h => c4 h.1)]
            push_cast
            ring
          rw [dx_eq_spec_residual, hR]

/-- Witness for C2 at x = 2.675: fractional part exactly 0.675 rounds down
to 2.5 (the band is `0.375 < f ≤ 0.675`), leaving residual 0.175. -/
theorem quarter_rounder_spec_witness :
    ((0:ℚ) ≤ 27/40 ∧ (27/40:ℚ) < 1)
    ∧ closest_fraction ((2 : ℕ) + (27/40 : ℚ))
      = (spec_rounded 2 (27/40),
         spec_residual_le (((2:ℕ) : ℚ) + 27/40) (spec_rounded 2 (27/40))) :=
  ⟨⟨by norm_num, by norm_num⟩, quarter_rounder_spec 2 (27/40) (by norm_num) (by norm_num)⟩

/-- Counterexample to C2 as stated: at x = 1/10000 (integer part 0,
fractional part 1/10000) the code snaps the residual to 0 because
|x - rounded| = 1e-4 is not strictly above the tolerance, while the
claim's strict `< 1e-4` rule keeps residual 1/10000. -/
theorem quarter_rounder_boundary_counterexample :
    closest_fraction (((0 : ℕ) : ℚ) + 1/10000)
      ≠ (spec_rounded 0 (1/10000),
         spec_residual_lt (((0 : ℕ) : ℚ) + 1/10000) (spec_rounded 0 (1/10000))) := by
  intro h
  have h1 : closest_fraction (((0 : ℕ) : ℚ) + 1/10000) = (0, 0) := by
    with_unfolding_all decide
  have h2 : spec_rounded 0 (1/10000) = 0 := by
    rw [spec_rounded]
    norm_num
  have habs : |(((0 : ℕ) : ℚ) + 1/10000) - 0| = 1/10000 := by
    rw [show ((((0 : ℕ) : ℚ) + 1/10000) - 0) = 1/10000 by push_cast; ring]
    exact abs_of_nonneg (by norm_num)
  have h3 : spec_residual_lt (((0 : ℕ) : ℚ) + 1/10000) 0 = 1/10000 := by
    rw [spec_residual_lt, habs]
    norm_num
  rw [h1, h2, h3] at h
  have h4 := congrArg Prod.snd h
  norm_num at h4

/-- C7 (amended): rounding is idempotent with zero residual on every
NON-NEGATIVE value of the quarter-hour lattice; for negative lattice values
the claim fails (see the counterexample), because `math.modf` truncates
toward zero and every test in the band cascade fails on a negative
fractional part. -/
theorem rounding_idempotent (n : ℕ) (c : ℚ)
    (hc : c = 0 ∨ c = 1/4 ∨ c = 1/2 ∨ c = 3/4) :
    closest_fraction ((n : ℚ) + c) = ((n : ℚ) + c, 0) := by
  have h0 : 0 ≤ c := by rcases hc with rfl | rfl | rfl | rfl <;> norm_num
  have h1 : c < 1 := by rcases hc with rfl | rfl | rfl | rfl <;> norm_num
  have ht := ratTrunc_natCast_add n c h0 h1
  simp only [closest_fraction, pymodf, ht]
  push_cast
  rw [show (n:ℚ) + c - n = c by ring]
  rcases hc with rfl | rfl | rfl | rfl <;> norm_num [ratAbs]

/-- Witness for C7 at x = 2.75, an already-rounded value. -/
theorem rounding_idempotent_witness :
    ((3/4 : ℚ) = 0 ∨ (3/4 : ℚ) = 1/4 ∨ (3/4 : ℚ) = 1/2 ∨ (3/4 : ℚ) = 3/4)
    ∧ closest_fraction (((2 : ℕ) : ℚ) + 3/4) = (((2 : ℕ) : ℚ) + 3/4, 0) :=
  ⟨by norm_num, rounding_idempotent 2 (3/4) (by norm_num)⟩

/-- Counterexample to C7 as stated ("for every value x"): -0.25 is -1 plus
the lattice offset 0.75, yet the code returns (0, -0.25), not (-0.25, 0). -/
theorem rounding_idempotent_counterexample :
    ((-1/4 : ℚ) = ((-1 : ℤ) : ℚ) + 3/4) ∧ closest_fraction (-1/4) ≠ (-1/4, 0) := by
  constructor
  · norm_num
  · with_unfolding_all decide

/-! ### C6: spreadsheet column addressing -/

theorem excel_column_name_fail_iff (i : ℕ) :
    excel_column_name i = none ↔ 702 ≤ i := by
  have hlen : column_list.length = 26 := rfl
  simp only [excel_column_name, hlen]
  split_ifs with h1 h2
  · simp
    omega
  · simp
    omega
  · simp
    omega

/-- C6: the Excel column mapper sends index 0 to "A", 25 to "Z", 26 to
"AA" and 701 (the last double-letter index, "ZZ") to "ZZ"; it succeeds on
every index needed for a 31-day month plus the trailing
Totals/Errors/Formulas columns (0..34), and fails exactly for column
numbers beyond the double-letter range, i.e. exactly for indices ≥ 702 =
27·26.  (`timecard.column_name` is the single-letter restriction of the
same alphabet.) -/
theorem excel_column_mapping :
    excel_column_name 0 = some "A"
    ∧ excel_column_name 25 = some "Z"
    ∧ excel_column_name 26 = some "AA"
    ∧ excel_column_name 701 = some "ZZ"
    ∧ ((List.range 35).all fun i => (excel_column_name i).isSome) = true
    ∧ ∀ i : ℕ, excel_column_name i = none ↔ 702 ≤ i := by
  refine ⟨?_, ?_, ?_, ?_, ?_, excel_column_name_fail_iff⟩ <;> with_unfolding_all decide

/-! ### C10: the reference date is recorded before the filter -/

theorem add_ref_of_some (t : Totals) {d : Date} (h : t.reference_date = some d)
    (p date tm : String) (fh : Bool) :
    ((t.add p date tm fh).1).reference_date = some d := by
  rcases hp : parse_date date with _ | dt
  · rw [add_of_parse_fail hp]; exact h
  · by_cases hf : 15 < dt.day ∧ fh = true
    · rw [add_of_filtered hp hf]
      simp [ref_update, h]
    · rw [add_of_processed hp hf]
      simp [ref_update, h]

theorem add_ref_isSome (t : Totals) {dt : Date} (p date tm : String) (fh : Bool)
    (hp : parse_date date = some dt) :
    (((t.add p date tm fh).1).reference_date).isSome = true := by
  by_cases hf : 15 < dt.day ∧ fh = true
  · rw [add_of_filtered hp hf]
    cases h : t.reference_date <;> simp [ref_update, h]
  · rw [add_of_processed hp hf]
    cases h : t.reference_date <;> simp [ref_update, h]

theorem runAdds_ref_of_some {d : Date} :
    ∀ (es : List Entry) (t : Totals), t.reference_date = some d →
      (runAdds t es).reference_date = some d := by
  intro es
  induction es with
  | nil => intro t h; exact h
  | cons e rest ih => intro t h; exact ih _ (add_ref_of_some t h _ _ _ _)

theorem runAdds_all_fail :
    ∀ (es : List Entry) (t : Totals), (∀ e ∈ es, parse_date e.date = none) →
      runAdds t es = t := by
  intro es
  induction es with
  | nil => intro t h; rfl
  | cons e rest ih =>
    intro t h
    rw [runAdds, add_of_parse_fail (h e (List.mem_cons_self _ _))]
    exact ih t (fun e2 he2 => h e2 (List.mem_cons_of_mem _ he2))

theorem runAdds_filtered_maps :
    ∀ (es : List Entry) (t : Totals),
      (∀ e ∈ es, ∃ dt, parse_date e.date = some dt ∧ 15 < dt.day ∧
        e.first_half = true) →
      (runAdds t es).data = t.data ∧ (runAdds t es).day_totals = t.day_totals
        ∧ (runAdds t es).project_totals = t.project_totals := by
  intro es
  induction es with
  | nil => intro t h; exact ⟨rfl, rfl, rfl⟩
  | cons e rest ih =>
    intro t h
    obtain ⟨dt, hp, hday, hfh⟩ := h e (List.mem_cons_self _ _)
    rw [runAdds, add_of_filtered hp ⟨hday, hfh⟩]
    exact ih _ (fun e2 he2 => h e2 (List.mem_cons_of_mem _ he2))

theorem runAdds_ref_isSome_of_parse :
    ∀ (es : List Entry) (t : Totals),
      (∃ e ∈ es, (parse_date e.date).isSome = true) →
      ((runAdds t es).reference_date).isSome = true := by
  intro es
  induction es with
  | nil =>
    intro t h
    obtain ⟨e, he, _⟩ := h
    exact absurd he (List.not_mem_nil e)
  | cons e rest ih =>
    intro t h
    obtain ⟨e2, he2, hs⟩ := h
    rcases List.mem_cons.mp he2 with rfl | he3
    · obtain ⟨dt, hp⟩ := Option.isSome_iff_exists.mp hs
      rw [runAdds]
      have h1 := add_ref_isSome t e2.project e2.date e2.time e2.first_half hp
      obtain ⟨d, hd⟩ := Option.isSome_iff_exists.mp h1
      rw [runAdds_ref_of_some rest _ hd]
      rfl
    · exact ih _ ⟨e2, he3, hs⟩

theorem days_in_month_pos (y m : ℕ) : 0 < days_in_month y m := by
  rw [days_in_month]
  split_ifs <;> norm_num

/-- C10: `Totals.add` records the first successfully parsed date as the
reference date before applying the day filter: after a run in which every
entry parsed but was discarded by the filter, all three dictionaries are
empty yet `get_number_of_days` returns the day count of the first entry's
month, which is never 0; and `get_number_of_days` is 0 exactly when no
`add` call ever got past the date parse. -/
theorem reference_date_before_filter :
    (∀ (e0 : Entry) (rest : List Entry) (dt0 : Date),
        parse_date e0.date = some dt0 →
        (∀ e ∈ e0 :: rest, ∃ dt, parse_date e.date = some dt ∧ 15 < dt.day ∧
            e.first_half = true) →
        (runAdds Totals.init (e0 :: rest)).data = []
        ∧ (runAdds Totals.init (e0 :: rest)).day_totals = []
        ∧ (runAdds Totals.init (e0 :: rest)).project_totals = []
        ∧ (runAdds Totals.init (e0 :: rest)).get_number_of_days
            = days_in_month dt0.year dt0.month
        ∧ (runAdds Totals.init (e0 :: rest)).get_number_of_days ≠ 0)
    ∧ (∀ entries : List Entry,
        (runAdds Totals.init entries).get_number_of_days = 0 ↔
          ∀ e ∈ entries, parse_date e.date = none) := by
  constructor
  · intro e0 rest dt0 hp0 hall
    obtain ⟨dt0', hp0', hday, hfh⟩ := hall e0 (List.mem_cons_self _ _)
    rw [hp0] at hp0'
    obtain rfl : dt0 = dt0' := Option.some.inj hp0'
    rw [runAdds, add_of_filtered hp0 ⟨hday, hfh⟩]
    have hrest : ∀ e ∈ rest, ∃ dt, parse_date e.date = some dt ∧ 15 < dt.day ∧
        e.first_half = true := fun e2 he2 => hall e2 (List.mem_cons_of_mem _ he2)
    obtain ⟨hd, hdy, hpt⟩ := runAdds_filtered_maps rest _ hrest
    have href := runAdds_ref_of_some rest
      ({ Totals.init with reference_date := ref_update Totals.init dt0 }) rfl
    refine ⟨hd.trans rfl, hdy.trans rfl, hpt.trans rfl, ?_, ?_⟩
    · simp [Totals.get_number_of_days, href]
    · simp [Totals.get_number_of_days, href]
      exact (days_in_month_pos _ _).ne'
  · intro entries
    constructor
    · intro h0
      by_contra hne
      push_neg at hne
      obtain ⟨e, he, hpe⟩ := hne
      have hs : (parse_date e.date).isSome = true := Option.ne_none_iff_isSome.mp hpe
      have h1 := runAdds_ref_isSome_of_parse entries Totals.init ⟨e, he, hs⟩
      obtain ⟨d, hdref⟩ := Option.isSome_iff_exists.mp h1
      rw [Totals.get_number_of_days] at h0
      rw [hdref] at h0
      exact absurd h0 (days_in_month_pos _ _).ne'
    · intro hall
      rw [runAdds_all_fail entries Totals.init hall]
      rfl

/-- Witness for C10: a single day-20 entry with the first-half filter on is
discarded, yet the June 2024 reference date yields 30 days. -/
theorem reference_date_before_filter_witness :
    (runAdds Totals.init [⟨"P", "20/06/2024", "1:00:00", true⟩]).project_totals = []
    ∧ (runAdds Totals.init [⟨"P", "20/06/2024", "1:00:00", true⟩]).get_number_of_days
        = 30 := by
  have hall : ∀ e ∈ [(⟨"P", "20/06/2024", "1:00:00", true⟩ : Entry)],
      ∃ dt, parse_date e.date = some dt ∧ 15 < dt.day ∧ e.first_half = true := by
    intro e he
    rcases List.mem_singleton.mp he with rfl
    exact ⟨⟨20, 6, 2024⟩, by with_unfolding_all decide, by decide, rfl⟩
  have h := reference_date_before_filter.1 ⟨"P", "20/06/2024", "1:00:00", true⟩ []
    ⟨20, 6, 2024⟩ (by with_unfolding_all decide) hall
  exact ⟨h.2.2.1, by rw [h.2.2.2.1]; rfl⟩

end Timecard
